import Mathlib

/-!
Verification of the core logic of `scripts/sync_workshops.py`
(votrackerapp-dev/votracker-content): a shallow embedding of the
merge engine (`rebuild_workshops`), the retention pruner
(`prune_events`), the identity resolver (`compute_event_id`,
`normalize_url`, the registration-URL selection of
`ensure_workshop_schema`), the temporal normalizer's end-only
time-range branch (`extract_time_from_text` case 3, `_to_24h`,
`apply_time_to_date`), the end-after-start adjustment of
`ensure_workshop_schema`, and the final two-pass deduplication of
`main`.

External collaborators (dateutil parsing/formatting, SHA-1, the
string-level `urllib.parse` round trip) are passed in as explicit
function parameters of the embedded definitions; everything the
claims quantify over is embedded from the Python source.

Timestamps are modelled as `Int` seconds; `none` used as the sort
key of an event whose `startAt` does not parse models Python's
`float("inf")` fallback in `rebuild_workshops.keyfn`.
-/

namespace SyncWorkshops

/-- Canonical catalog record: the fields of a persisted `workshops`
entry that the merge, prune, identity and dedup logic of
`sync_workshops.py` actually inspects. -/
structure Event where
  id : Option String
  title : String
  startAt : Option String
  endAt : Option String
  registrationURL : Option String
  detail : Option String
deriving DecidableEq, Repr

/-- Character-level `str.lower` (ASCII model of CPython's `str.lower`,
which is all the embedded logic ever feeds it). -/
def lowerS (s : String) : String := String.mk (s.toList.map Char.toLower)

/-- Character-level `str.upper` (ASCII model). -/
def upperS (s : String) : String := String.mk (s.toList.map Char.toUpper)

/-- Character-level `str.strip()`: drop leading and trailing
whitespace. -/
def trimS (s : String) : String :=
  String.mk (((s.toList.dropWhile Char.isWhitespace).reverse.dropWhile
    Char.isWhitespace).reverse)

/-- Python slicing `s[:n]` by code points. -/
def takeS (s : String) (n : Nat) : String := String.mk (s.toList.take n)

/-- Python truthiness of an optional string field (`w.get(k)`):
`None` and `""` are falsy. -/
def truthyS : Option String → Bool
  | none => false
  | some s => s ≠ ""

/-- Python's `a or b` on two optional-string expressions: the first
truthy value. -/
def pyOr : Option String → Option String → Option String
  | some s, b => if s = "" then b else some s
  | none, b => b

/-- Strict order on parsed sort keys; `none` plays the part of
`float("inf")` in `rebuild_workshops.keyfn` (an unparseable or
missing `startAt`). -/
def keyLtB : Option Int → Option Int → Bool
  | none, _ => false
  | some _, none => true
  | some a, some b => a < b

/-- Sort key of `rebuild_workshops.keyfn`:
`dateparser.parse(x.get("startAt")).timestamp()` with `inf` on any
failure.  `parse` is the embedded date parser. -/
def ekey (parse : String → Option Int) (w : Event) : Option Int :=
  w.startAt.bind parse

/-- Stable insertion: place `x` after every element whose key is
strictly smaller, before the first element whose key is not.  A
stable sort by a total preorder is extensionally unique, so this
models Python's stable `list.sort(key=...)`. -/
def insertEv (key : Event → Option Int) (x : Event) : List Event → List Event
  | [] => [x]
  | y :: ys => if keyLtB (key y) (key x) then y :: insertEv key x ys else x :: y :: ys

/-- Stable sort by key (models `result.sort(key=keyfn)`). -/
def isortBy (key : Event → Option Int) : List Event → List Event
  | [] => []
  | x :: xs => insertEv key x (isortBy key xs)

/-- `w.get("id", "")` of `rebuild_workshops`. -/
def idStr (w : Event) : String := w.id.getD ""

/-- Source prefix extracted from an event id in `rebuild_workshops`:
`event_id.split("-")[0] if "-" in event_id else None`. -/
def extractSrc (s : String) : Option String :=
  if '-' ∈ s.toList then some (String.mk (s.toList.takeWhile (fun c => c ≠ '-')))
  else none

/-- The keep test of step 1 of `rebuild_workshops`:
`if source_id and source_id not in successfully_scraped_sources`.
An event is carried forward from the previous catalog exactly when
its extracted source prefix is truthy and not among the succeeded
sources. -/
def keptOld (succeeded : List String) (w : Event) : Bool :=
  match extractSrc (idStr w) with
  | some sid => sid ≠ "" && !(succeeded.contains sid)
  | none => false

/-- Step 2 filter of `rebuild_workshops`: `if w.get("id")`. -/
def hasId (w : Event) : Bool := truthyS w.id

/-- `rebuild_workshops(existing, incoming, successfully_scraped_sources)`:
keep old events only from sources that did not succeed, append all
incoming events that carry an id, and stable-sort by parsed start
date. -/
def rebuildWorkshops (parse : String → Option Int)
    (existing incoming : List Event) (succeeded : List String) : List Event :=
  isortBy (ekey parse) (existing.filter (keptOld succeeded) ++ incoming.filter hasId)

/-- One day of the embedded timeline, in seconds (`dt.timedelta(days=1)`). -/
def daySecs : Int := 86400

/-- `DEFAULT_EVENT_DURATION_HOURS = 2`, in seconds. -/
def defaultDurationSecs : Int := 7200

/-- `parse_date_any` applied to an optional raw field: `None` parses to
`None`, otherwise the embedded parser decides. -/
def parseField (parse : String → Option Int) (o : Option String) : Option Int :=
  o.bind parse

/-- The keep test of `prune_events`: start must parse, and then
`end >= past_cut and start <= future_cut` where `end` falls back to
`start` when `endAt` does not parse. -/
def pruneKeep (parse : String → Option Int) (prunePast keepFut now : Int)
    (w : Event) : Bool :=
  match parseField parse w.startAt with
  | none => false
  | some s =>
    let e := (parseField parse w.endAt).getD s
    decide (now - prunePast * daySecs ≤ e) && decide (s ≤ now + keepFut * daySecs)

/-- `prune_events(items, prune_days_past, keep_days_future, ...)`:
keep the events inside the retention window, in their input order. -/
def pruneEvents (parse : String → Option Int) (items : List Event)
    (prunePast keepFut now : Int) : List Event :=
  items.filter (pruneKeep parse prunePast keepFut now)

/-- Meridiem marker captured by the time regexes (`am`/`pm`). -/
inductive AmPm
  | am
  | pm
deriving DecidableEq, Repr

/-- `_to_24h(h, m, ap)`: 12-hour to 24-hour conversion.  With no
marker, hours 1..11 are bumped to the afternoon/evening; under `am`,
12 becomes 0; under `pm`, every hour except 12 gains 12. -/
def to24h (h m : Nat) (ap : Option AmPm) : Nat × Nat :=
  match ap with
  | none =>
    if 1 ≤ h ∧ h ≤ 6 then (h + 12, m)
    else if 7 ≤ h ∧ h ≤ 11 then (h + 12, m)
    else (h, m)
  | some .am => if h = 12 then (0, m) else (h, m)
  | some .pm => if h = 12 then (h, m) else (h + 12, m)

/-- The start-meridiem inference of `extract_time_from_text` case 3
(`TIME_RANGE_END_ONLY_RE`): `if sh > eh and sh >= 10: sap = "am"
else: sap = eap`. -/
def endOnlySap (sh eh : Nat) (eap : AmPm) : AmPm :=
  if sh > eh ∧ 10 ≤ sh then .am else eap

/-- Processing of an end-only-meridiem range match in
`extract_time_from_text`: infer the start marker, then convert both
ends with `_to_24h`.  Arguments are the captured groups
`(sh, sm, eh, em, eap)`. -/
def endOnlyTimes (sh sm eh em : Nat) (eap : AmPm) : Nat × Nat × Nat × Nat :=
  let sap := endOnlySap sh eh eap
  let s := to24h sh sm (some sap)
  let e := to24h eh em (some eap)
  (s.1, s.2, e.1, e.2)

/-- `apply_time_to_date(base_date, text, ...)` after
`extract_time_from_text` has produced `t` (`none` models the
no-time-found default of 18:00 plus the default duration).  `base` is
the midnight instant of the base date; if the naive end is on or
before the start the end is rolled forward one day. -/
def applyTimeToDate (base : Int) (t : Option (Nat × Nat × Nat × Nat)) : Int × Int :=
  match t with
  | some (sh, sm, eh, em) =>
    let start := base + sh * 3600 + sm * 60
    let e := base + eh * 3600 + em * 60
    (start, if e ≤ start then e + daySecs else e)
  | none =>
    let start := base + 18 * 3600
    (start, start + defaultDurationSecs)

/-- The start/end resolution of `ensure_workshop_schema` (lines
198-201): default the end to start plus two hours, then roll an end
on or before the start forward one day.  Inputs are the parse
results of the raw start/end fields. -/
def schemaTimes : Option Int → Option Int → Option Int × Option Int
  | some s, none => (some s, some (s + defaultDurationSecs))
  | some s, some e => (some s, some (if e ≤ s then e + daySecs else e))
  | none, e => (none, e)

/-- `compute_event_id(source_id, title, start_at, reg_url)`.  `h` is
the embedded `sha1` hex digest.  A truthy registration URL keys the
id; otherwise the id is keyed by source, lower-cased trimmed title
and start. -/
def computeEventId (h : String → String) (sourceId title startAt : String)
    (regUrl : Option String) : String :=
  let key :=
    if truthyS regUrl then
      sourceId ++ "|url|" ++ regUrl.getD ""
    else
      sourceId ++ "|ts|" ++ lowerS (trimS title) ++ "|" ++ startAt
  sourceId ++ "-" ++ takeS (h key) 16

/-- Raw candidate fields consulted by `ensure_workshop_schema` for
identity: the four URL aliases, the id, and the title aliases. -/
structure RawCandidate where
  id : Option String
  title : Option String
  name : Option String
  registrationURL : Option String
  url : Option String
  link : Option String
  registrationUrl : Option String
deriving DecidableEq, Repr

/-- Source configuration fields consulted by
`ensure_workshop_schema`: id and the landing-page URL. -/
structure Source where
  id : Option String
  name : Option String
  url : Option String
deriving DecidableEq, Repr

/-- Split a character list at whitespace (the runs between
whitespace characters, empties included). -/
def wsSplit : List Char → List (List Char)
  | [] => [[]]
  | c :: cs =>
    match wsSplit cs with
    | t :: ts => if c.isWhitespace then [] :: t :: ts else (c :: t) :: ts
    | [] => [[c]]

/-- `re.sub(r"\s+", " ", s).strip()`: collapse every whitespace run
to one space and trim. -/
def collapseWs (s : String) : String :=
  String.intercalate " "
    (((wsSplit s.toList).filter (fun t => t ≠ [])).map (fun t => String.mk t))

/-- `safe_text(s, max_len)`: collapse whitespace, reject the empty
result, cap the length. -/
def safeText (s : Option String) (maxLen : Nat) : Option String :=
  match s with
  | none => none
  | some s =>
    let t := collapseWs s
    if t = "" then none else some (takeS t maxLen)

/-- The registration URL chosen by `ensure_workshop_schema` (lines
184-190): the first truthy of the candidate's four URL aliases *or
the source's own landing-page URL*, then canonicalized.  `normUrl`
is the embedded string-level `normalize_url`. -/
def schemaRegUrl (normUrl : String → Option String) (e : RawCandidate)
    (src : Source) : Option String :=
  (pyOr e.registrationURL (pyOr e.url (pyOr e.link (pyOr e.registrationUrl src.url)))).bind
    normUrl

/-- The title chosen by `ensure_workshop_schema`:
`safe_text(e.get("title") or e.get("name") or "Workshop", 200) or "Workshop"`. -/
def schemaTitle (e : RawCandidate) : String :=
  (safeText (pyOr e.title (pyOr e.name (some "Workshop"))) 200).getD "Workshop"

/-- The id assigned by `ensure_workshop_schema` (lines 228-246): keep
a truthy extractor-provided id, otherwise compute one whenever the
normalized record has a truthy `startAt`. -/
def schemaEventId (h : String → String) (normUrl : String → Option String)
    (e : RawCandidate) (src : Source) (startAtOut : Option String) : Option String :=
  let srcId := trimS ((pyOr src.id (some "unknown")).getD "unknown")
  let title := schemaTitle e
  let reg := schemaRegUrl normUrl e src
  if truthyS e.id then e.id
  else if truthyS startAtOut then
    some (computeEventId h srcId title (startAtOut.getD "") reg)
  else e.id

/-- `TRACKING_PARAMS` (the module-level constant). -/
def TRACKING_PARAMS : List String :=
  ["utm_source", "utm_medium", "utm_campaign", "utm_term", "utm_content",
   "fbclid", "gclid", "mc_cid", "mc_eid"]

/-- A URL as decomposed by `urllib.parse.urlparse` /`parse_qsl`:
scheme, network location, path, the query as a decoded key-value
list, and the fragment. -/
structure ParsedUrl where
  scheme : String
  netloc : String
  path : String
  query : List (String × String)
  fragment : String
deriving DecidableEq, Repr

/-- Upper-case hex digit. -/
def hexDigit (n : Nat) : Char :=
  if n < 10 then Char.ofNat (48 + n) else Char.ofNat (55 + n)

/-- UTF-8 encoding of one code point, as byte values. -/
def utf8Bytes (c : Char) : List Nat :=
  let n := c.toNat
  if n < 128 then [n]
  else if n < 2048 then [192 + n / 64, 128 + n % 64]
  else if n < 65536 then [224 + n / 4096, 128 + (n / 64) % 64, 128 + n % 64]
  else [240 + n / 262144, 128 + (n / 4096) % 64, 128 + (n / 64) % 64, 128 + n % 64]

/-- `urllib.parse.quote_plus` on one UTF-8 byte: ASCII letters,
digits and `_.-~` pass through, a space becomes `+`, everything else
is percent-encoded. -/
def quotePlusByte (n : Nat) : String :=
  if (48 ≤ n ∧ n ≤ 57) ∨ (65 ≤ n ∧ n ≤ 90) ∨ (97 ≤ n ∧ n ≤ 122) ∨
      n = 95 ∨ n = 46 ∨ n = 45 ∨ n = 126 then
    String.mk [Char.ofNat n]
  else if n = 32 then "+"
  else String.mk ['%', hexDigit (n / 16), hexDigit (n % 16)]

/-- `quote_plus` over a string's UTF-8 bytes. -/
def quotePlus (s : String) : String :=
  String.join ((s.toList.map utf8Bytes).join.map quotePlusByte)

/-- `urllib.parse.urlencode(q, doseq=True)` for string-valued pairs. -/
def urlencodeQ (q : List (String × String)) : String :=
  String.intercalate "&" (q.map (fun kv => quotePlus kv.1 ++ "=" ++ quotePlus kv.2))

/-- `urllib.parse.urlunparse((scheme, netloc, path, "", query, ""))`,
following CPython's `urlunsplit` with empty params and fragment. -/
def urlunparseStr (scheme netloc path query : String) : String :=
  let url :=
    if netloc ≠ "" ∨ path.toList.take 2 = ['/', '/'] then
      "//" ++ netloc ++
        (if path ≠ "" ∧ path.toList.take 1 ≠ ['/'] then "/" ++ path else path)
    else path
  let url := if scheme ≠ "" then scheme ++ ":" ++ url else url
  if query ≠ "" then url ++ "?" ++ query else url

/-- The trailing-slash collapse of `normalize_url`:
`if path != "/" and path.endswith("/"): path = path[:-1]`. -/
def stripTrailingSlash (p : String) : String :=
  if p ≠ "/" ∧ p.toList.getLast? = some '/' then String.mk p.toList.dropLast else p

/-- The canonical components `normalize_url` assembles: scheme
defaulted to `https` and lower-cased, netloc lower-cased, a single
trailing slash collapsed on a non-root path, tracking parameters
stripped from the query, fragment dropped. -/
def normalizeParts (u : ParsedUrl) : ParsedUrl :=
  { scheme := lowerS (if u.scheme = "" then "https" else u.scheme)
    netloc := lowerS u.netloc
    path := stripTrailingSlash u.path
    query := u.query.filter (fun kv => !(TRACKING_PARAMS.contains kv.1))
    fragment := "" }

/-- `normalize_url` on a parsed URL: canonicalize the components and
reassemble the string. -/
def normalizeUrl (u : ParsedUrl) : String :=
  let n := normalizeParts u
  urlunparseStr n.scheme n.netloc n.path (urlencodeQ n.query)

/-- `w.get('registrationURL')` truthiness in the final URL dedup
pass of `main`. -/
def truthyUrl (w : Event) : Option String :=
  match w.registrationURL with
  | some u => if u = "" then none else some u
  | none => none

/-- The `generic_titles` list of `main`'s URL dedup pass. -/
def genericTitles : List String :=
  ["THE VO PROS", "THEVOPROS", "VO PROS", "WORKSHOP", "CLASS", "EVENT"]

/-- `w.get('title', '').upper() in generic_titles`. -/
def isGeneric (t : String) : Bool := genericTitles.contains (upperS t)

/-- `url_deduped[url_deduped.index(old)] = new`: replace the first
occurrence of `old` (Python list equality is value equality). -/
def replaceFirst (l : List Event) (old w : Event) : List Event :=
  match l with
  | [] => []
  | x :: xs => if x = old then w :: xs else x :: replaceFirst xs old w

/-- `seen_urls[url] = w` over the association-list model of the
`seen_urls` dict. -/
def updateSeen (seen : List (String × Event)) (u : String) (w : Event) :
    List (String × Event) :=
  seen.map (fun kv => if kv.1 = u then (u, w) else kv)

/-- Pass 1 of `main`'s final deduplication: keep one event per truthy
registration URL; a later event replaces the kept one only when the
kept title is generic and the later one is not. -/
def dedupeByUrlAux : List Event → List Event → List (String × Event) → List Event
  | [], out, _ => out
  | w :: ws, out, seen =>
    match truthyUrl w with
    | none => dedupeByUrlAux ws (out ++ [w]) seen
    | some u =>
      match seen.lookup u with
      | some e =>
        if !(isGeneric w.title) && isGeneric e.title then
          dedupeByUrlAux ws (replaceFirst out e w) (updateSeen seen u w)
        else
          dedupeByUrlAux ws out seen
      | none => dedupeByUrlAux ws (out ++ [w]) ((u, w) :: seen)

/-- The title+date key of pass 2:
`re.sub(r'[^a-z0-9]', '', title.lower())[:30] + "|" + startAt[:10]`. -/
def dedupKey (w : Event) : String :=
  let t := String.mk (((w.title.toList.map Char.toLower).filter
    (fun c => ('a' ≤ c ∧ c ≤ 'z') ∨ ('0' ≤ c ∧ c ≤ '9'))).take 30)
  t ++ "|" ++ takeS (w.startAt.getD "") 10

/-- Pass 2 of `main`'s final deduplication: keep the first event for
each title+date key. -/
def dedupeByKeyAux : List Event → List Event → List String → List Event
  | [], out, _ => out
  | w :: ws, out, seenK =>
    if seenK.contains (dedupKey w) then dedupeByKeyAux ws out seenK
    else dedupeByKeyAux ws (out ++ [w]) (dedupKey w :: seenK)

/-- The complete final deduplication of `main` (lines 1975-2010):
URL pass then title+date pass. -/
def finalDedupe (l : List Event) : List Event :=
  dedupeByKeyAux (dedupeByUrlAux l [] []) [] []

/-- The per-run source classification of `main` (lines 1945-1962):
an extractor error (`none`) is a failure; a non-empty kept output
succeeds; an empty output succeeds only under `allow_zero_events`. -/
def classifySource : Option (List Event) → Bool → Bool
  | none, _ => false
  | some evs, allowZero => !evs.isEmpty || allowZero

/-- A degenerate embedded date parser mapping every string to the
same instant; used to exhibit concrete runs where all sort keys tie. -/
def parseZero : String → Option Int := fun _ => some 0

/-- Concrete prior-catalog record of source `s`: no registration URL,
populated detail. -/
def c1Old : Event :=
  { id := some "s-x", title := "T", startAt := some "2026-03-01T10:00:00-08:00",
    endAt := none, registrationURL := none, detail := some "foo" }

/-- Concrete incoming record with the same id: registration URL
populated, detail absent. -/
def c1New : Event :=
  { id := some "s-x", title := "T", startAt := some "2026-03-01T10:00:00-08:00",
    endAt := none, registrationURL := some "https://y", detail := none }

/-- Concrete source configuration whose landing page is
`https://site.com/events`. -/
def c2Src : Source :=
  { id := some "src", name := none, url := some "https://site.com/events" }

/-- Candidate scraped off the listing page: no per-event URL, title
`Alpha Class`. -/
def c2CandA : RawCandidate :=
  { id := none, title := some "Alpha Class", name := none,
    registrationURL := none, url := none, link := none, registrationUrl := none }

/-- Second candidate off the same listing page: no per-event URL,
title `Beta Class`. -/
def c2CandB : RawCandidate :=
  { id := none, title := some "Beta Class", name := none,
    registrationURL := none, url := none, link := none, registrationUrl := none }

/-- Stand-in for the `sha1` hex digest (the identity claims depend
only on the hash input string, never on digest internals). -/
def c2Hash : String → String := fun s => s

/-- Stand-in for the string-level `normalize_url` (injective on the
inputs involved; the identity claims depend only on which string is
normalized). -/
def c2Norm : String → Option String := fun s => if s = "" then none else some s

/-- Prior-catalog record of the failed source `A`. -/
def c3OldA : Event :=
  { id := some "A-1", title := "kept", startAt := some "2026-03-02", endAt := none,
    registrationURL := none, detail := none }

/-- Stale prior-catalog record of the succeeded source `B`. -/
def c3OldB : Event :=
  { id := some "B-9", title := "stale", startAt := some "2026-03-03", endAt := none,
    registrationURL := none, detail := none }

/-- Fresh record produced by source `B` this run. -/
def c3NewB : Event :=
  { id := some "B-1", title := "fresh", startAt := some "2026-03-04", endAt := none,
    registrationURL := none, detail := none }

/-- Embedded date parser for the retention-boundary run: maps the
four probe strings to instants exactly on and one second beyond the
two window boundaries (`now = 0`, `P = 7`, `F = 365`). -/
def c6Parse : String → Option Int := fun s =>
  if s = "a" then some (-604800)
  else if s = "b" then some (-604801)
  else if s = "c" then some 31536000
  else if s = "d" then some 31536001
  else if s = "z" then some 0
  else none

/-- Event ending exactly at `now - P` days. -/
def c6E1 : Event :=
  { id := some "s-1", title := "w1", startAt := some "z", endAt := some "a",
    registrationURL := none, detail := none }

/-- Event ending one second before `now - P` days. -/
def c6E2 : Event :=
  { id := some "s-2", title := "w2", startAt := some "z", endAt := some "b",
    registrationURL := none, detail := none }

/-- Event starting exactly at `now + F` days (no end given). -/
def c6E3 : Event :=
  { id := some "s-3", title := "w3", startAt := some "c", endAt := none,
    registrationURL := none, detail := none }

/-- Event starting one second after `now + F` days. -/
def c6E4 : Event :=
  { id := some "s-4", title := "w4", startAt := some "d", endAt := none,
    registrationURL := none, detail := none }

/-- Incoming record whose id prefix (`a`) is not in the succeeded
set of the run it is merged in. -/
def c7Inc : Event :=
  { id := some "a-b", title := "W", startAt := some "2026-03-01", endAt := none,
    registrationURL := none, detail := none }

/-- Prior-catalog record of a failed source `z`. -/
def c7OldZ : Event :=
  { id := some "z-1", title := "old", startAt := some "2026-03-05", endAt := none,
    registrationURL := none, detail := none }

/-- Record of source `s`, title `beta`, sharing its start instant
with `c8EvA` under `parseZero`. -/
def c8EvB : Event :=
  { id := some "s-1", title := "beta", startAt := some "2026-03-01T10:00:00",
    endAt := none, registrationURL := none, detail := none }

/-- Record of source `t`, title `Alpha`, same start instant. -/
def c8EvA : Event :=
  { id := some "t-1", title := "Alpha", startAt := some "2026-03-01T10:00:00",
    endAt := none, registrationURL := none, detail := none }

/-- Catalog record with registration URL `u1`. -/
def c10E1 : Event :=
  { id := some "s-1", title := "Alpha", startAt := some "2026-03-01T10",
    endAt := none, registrationURL := some "u1", detail := none }

/-- Catalog record with the distinct registration URL `u2` but the
same title+date dedup key as `c10E1`. -/
def c10E2 : Event :=
  { id := some "s-2", title := "Alpha", startAt := some "2026-03-01T12",
    endAt := none, registrationURL := some "u2", detail := none }

/-- Two records never share a truthy registration URL. -/
def UrlDistinct (a b : Event) : Prop :=
  ∀ u, truthyUrl a = some u → truthyUrl b ≠ some u

/-- `a` sorts no later than `b` (non-strict key order). -/
def keyLeP (key : Event → Option Int) (a b : Event) : Prop :=
  keyLtB (key b) (key a) = false

/-- The list is in non-decreasing key order. -/
def SortedK (key : Event → Option Int) (l : List Event) : Prop :=
  l.Pairwise (keyLeP key)

theorem keyLtB_asymm {a b : Option Int} (h : keyLtB a b = true) :
    keyLtB b a = false := by
  cases a <;> cases b <;> simp_all [keyLtB] <;> omega

theorem keyLtB_lt_trans {a b c : Option Int} (h1 : keyLtB a b = true)
    (h2 : keyLtB b c = true) : keyLtB a c = true := by
  cases a <;> cases b <;> cases c <;> simp_all [keyLtB] <;> omega

theorem keyLtB_le_trans {a b c : Option Int} (h1 : keyLtB b a = false)
    (h2 : keyLtB c b = false) : keyLtB c a = false := by
  cases a <;> cases b <;> cases c <;> simp_all [keyLtB] <;> omega

section SortLemmas

variable (key : Event → Option Int)

theorem insertEv_perm (x : Event) (l : List Event) :
    (insertEv key x l).Perm (x :: l) := by
  induction l with
  | nil => simp [insertEv]
  | cons y ys ih =>
    by_cases h : keyLtB (key y) (key x) = true
    · simp only [insertEv, h, if_true]
      exact (ih.cons y).trans (List.Perm.swap x y ys)
    · simp only [insertEv, eq_false_of_ne_true h, Bool.false_eq_true, if_false]
      exact List.Perm.refl _

theorem mem_insertEv {z x : Event} {l : List Event}
    (h : z ∈ insertEv key x l) : z = x ∨ z ∈ l := by
  have := (insertEv_perm key x l).mem_iff.mp h
  simpa using this

theorem isortBy_perm (l : List Event) : (isortBy key l).Perm l := by
  induction l with
  | nil => exact List.Perm.refl _
  | cons x xs ih =>
    exact (insertEv_perm key x (isortBy key xs)).trans (ih.cons x)

theorem insertEv_sorted {x : Event} {l : List Event} (h : SortedK key l) :
    SortedK key (insertEv key x l) := by
  induction l with
  | nil => simp [insertEv, SortedK]
  | cons y ys ih =>
    rcases List.pairwise_cons.mp h with ⟨hy, hys⟩
    by_cases hc : keyLtB (key y) (key x) = true
    · simp only [insertEv, hc, if_true]
      refine List.pairwise_cons.mpr ⟨?_, ih hys⟩
      intro z hz
      rcases mem_insertEv key hz with rfl | hz'
      · exact keyLtB_asymm hc
      · exact hy z hz'
    · simp only [insertEv, eq_false_of_ne_true hc, Bool.false_eq_true, if_false]
      refine List.pairwise_cons.mpr ⟨?_, h⟩
      intro z hz
      rcases List.mem_cons.mp hz with rfl | hz'
      · exact eq_false_of_ne_true hc
      · exact keyLtB_le_trans (eq_false_of_ne_true hc) (hy z hz')

theorem isortBy_sorted (l : List Event) : SortedK key (isortBy key l) := by
  induction l with
  | nil => simp [isortBy, SortedK]
  | cons x xs ih => exact insertEv_sorted key ih

theorem insertEv_eq_cons {x : Event} {l : List Event}
    (h : ∀ z ∈ l, keyLtB (key z) (key x) = false) :
    insertEv key x l = x :: l := by
  cases l with
  | nil => rfl
  | cons y ys => simp [insertEv, h y (List.mem_cons_self y ys)]

theorem filter_insertEv_neg {p : Event → Bool} {x : Event} (hp : p x = false)
    (l : List Event) : (insertEv key x l).filter p = l.filter p := by
  induction l with
  | nil => simp [insertEv, hp]
  | cons y ys ih =>
    by_cases hc : keyLtB (key y) (key x) = true
    · simp only [insertEv, hc, if_true]
      cases hy : p y <;> simp [List.filter_cons, hy, ih]
    · simp [insertEv, eq_false_of_ne_true hc, List.filter_cons, hp]

theorem filter_insertEv_pos {p : Event → Bool} {x : Event} (hp : p x = true)
    {l : List Event} (h : SortedK key l) :
    (insertEv key x l).filter p = insertEv key x (l.filter p) := by
  induction l with
  | nil => simp [insertEv, hp]
  | cons y ys ih =>
    rcases List.pairwise_cons.mp h with ⟨hy, hys⟩
    by_cases hc : keyLtB (key y) (key x) = true
    · simp only [insertEv, hc, if_true]
      cases hpy : p y
      · simp only [List.filter_cons, hpy, Bool.false_eq_true, if_false]
        exact ih hys
      · simp only [List.filter_cons, hpy, if_true]
        rw [ih hys, insertEv]
        simp [hc]
    · simp only [insertEv, eq_false_of_ne_true hc, Bool.false_eq_true, if_false]
      rw [List.filter_cons, hp, if_pos rfl]
      rw [insertEv_eq_cons key]
      intro z hz
      rcases List.mem_filter.mp hz with ⟨hz', _⟩
      rcases List.mem_cons.mp hz' with rfl | hz''
      · exact eq_false_of_ne_true hc
      · exact keyLtB_le_trans (eq_false_of_ne_true hc) (hy z hz'')

theorem filter_isortBy (p : Event → Bool) (l : List Event) :
    (isortBy key l).filter p = isortBy key (l.filter p) := by
  induction l with
  | nil => rfl
  | cons x xs ih =>
    cases hp : p x
    · rw [isortBy, filter_insertEv_neg key hp, ih, List.filter_cons, hp]
      simp
    · rw [isortBy, filter_insertEv_pos key hp (isortBy_sorted key xs), ih,
        List.filter_cons, hp, if_pos rfl, isortBy]

theorem insertEv_comm {x y : Event} (h : keyLtB (key y) (key x) = true)
    (l : List Event) :
    insertEv key y (insertEv key x l) = insertEv key x (insertEv key y l) := by
  have hxy : keyLtB (key x) (key y) = false := keyLtB_asymm h
  induction l with
  | nil => simp [insertEv, h, hxy]
  | cons z zs ih =>
    by_cases hzy : keyLtB (key z) (key y) = true
    · have hzx : keyLtB (key z) (key x) = true := keyLtB_lt_trans hzy h
      simp only [insertEv, hzx, hzy, if_true, ih]
    · have hzy' : keyLtB (key z) (key y) = false := eq_false_of_ne_true hzy
      by_cases hzx : keyLtB (key z) (key x) = true
      · simp only [insertEv, hzx, hzy', if_true, Bool.false_eq_true, if_false, h,
          hxy]
      · have hzx' : keyLtB (key z) (key x) = false := eq_false_of_ne_true hzx
        simp only [insertEv, hzx', hzy', Bool.false_eq_true, if_false, h, hxy,
          if_true]

theorem isortBy_insertEv_append (x : Event) (l t : List Event) :
    isortBy key (insertEv key x l ++ t) = insertEv key x (isortBy key (l ++ t)) := by
  induction l with
  | nil => rfl
  | cons y ys ih =>
    by_cases hc : keyLtB (key y) (key x) = true
    · simp only [insertEv, hc, if_true, List.cons_append]
      rw [isortBy, ih, insertEv_comm key hc]
      rfl
    · simp only [insertEv, eq_false_of_ne_true hc, Bool.false_eq_true, if_false,
        List.cons_append]
      rfl

theorem isortBy_idem_append (l t : List Event) :
    isortBy key (isortBy key l ++ t) = isortBy key (l ++ t) := by
  induction l with
  | nil => rfl
  | cons x xs ih =>
    rw [isortBy, isortBy_insertEv_append key, ih]
    rfl

end SortLemmas

/-- C1 counterexample: the existing record `{id=s-x, detail="foo"}`
merged with the incoming `{id=s-x, registrationURL="https://y"}`
(source `s` succeeded) yields the incoming record verbatim —
`rebuild_workshops` never merges fields, so the existing populated
`detail` is lost, contradicting the claimed never-overwrite rule. -/
theorem c1_cex :
    rebuildWorkshops parseZero [c1Old] [c1New] ["s"] = [c1New]
      ∧ c1Old.detail = some "foo" ∧ c1New.registrationURL = some "https://y"
      ∧ ∀ w ∈ rebuildWorkshops parseZero [c1Old] [c1New] ["s"],
          w.detail ≠ some "foo" := by
  decide

/-- C1 (amended): when an existing record and an incoming record
share an id whose source prefix is in the succeeded set, the merged
catalog contains exactly one record with that id, namely the
incoming record verbatim: the incoming non-empty fields are
accepted, but no field-level merge happens — populated fields of the
dropped existing record are not preserved. -/
theorem c1_thm (parse : String → Option Int) (s : String) (S : List String)
    (ex inc : Event) (hid : ex.id = inc.id)
    (hsrc : extractSrc (idStr ex) = some s) (hS : s ∈ S)
    (hinc : hasId inc = true) :
    rebuildWorkshops parse [ex] [inc] S = [inc] := by
  have hk : keptOld S ex = false := by
    have hc : S.contains s = true := List.elem_eq_true_of_mem hS
    simp [keptOld, hsrc, hc]
    exact fun _ => hS
  simp [rebuildWorkshops, List.filter, hk, hinc, isortBy, insertEv]

/-- C1 witness: the amended replacement behaviour at the concrete
records of the counterexample. -/
theorem c1_wit :
    rebuildWorkshops parseZero [c1Old] [c1New] ["s"] = [c1New] :=
  c1_thm parseZero "s" ["s"] c1Old c1New (by decide) (by decide)
    (by decide) (by decide)

/-- C3: if source `A` throws (classified failed regardless of its
allow-zero flag) and source `B` succeeds with a non-empty batch,
then the merged catalog is exactly `A`'s prior entries (carried
verbatim) together with `B`'s new records, up to the final sort:
no prior `B` entry survives and no `A` entry is dropped. -/
theorem c3_thm (parse : String → Option Int) (azA azB : Bool)
    (E bNew : List Event) (A B : String) (hA : A ≠ "") (hAB : A ≠ B)
    (hE : ∀ w ∈ E, extractSrc (idStr w) = some A ∨ extractSrc (idStr w) = some B)
    (hI : ∀ w ∈ bNew, hasId w = true) (hN : bNew ≠ []) :
    (rebuildWorkshops parse E bNew
        ((if classifySource none azA then [A] else [])
          ++ (if classifySource (some bNew) azB then [B] else []))).Perm
      (E.filter (fun w => extractSrc (idStr w) == some A) ++ bNew) := by
  have hca : classifySource none azA = false := rfl
  have hcb : classifySource (some bNew) azB = true := by
    simp [classifySource, hN]
  rw [hca, hcb]
  simp only [Bool.false_eq_true, if_false, if_true, List.nil_append]
  have h1 : E.filter (keptOld [B]) =
      E.filter (fun w => extractSrc (idStr w) == some A) := by
    apply List.filter_congr
    intro w hw
    rcases hE w hw with h | h
    · simp [keptOld, h, hA, hAB, Ne.symm hAB]
    · simp [keptOld, h, hAB, Ne.symm hAB]
  have h2 : bNew.filter hasId = bNew := List.filter_eq_self.mpr hI
  rw [rebuildWorkshops, h1, h2]
  exact isortBy_perm _ _

/-- C3 witness: the concrete A-throws/B-succeeds run of the claim. -/
theorem c3_wit :
    (rebuildWorkshops parseZero [c3OldA, c3OldB] [c3NewB]
        ((if classifySource none false then ["A"] else [])
          ++ (if classifySource (some [c3NewB]) false then ["B"] else []))).Perm
      ([c3OldA, c3OldB].filter (fun w => extractSrc (idStr w) == some "A")
        ++ [c3NewB]) :=
  c3_thm parseZero false false [c3OldA, c3OldB] [c3NewB] "A" "B" (by decide)
    (by decide) (by decide) (by decide) (by decide)

/-- C7 counterexample: merging the one-record batch `[c7Inc]`
(id `a-b`) with an empty succeeded set twice duplicates the record —
`rebuild_workshops` is not idempotent for an arbitrary per-source
classification, because an incoming record whose id prefix is not in
the succeeded set is both kept in step 1 and re-added in step 2 of
the second merge. -/
theorem c7_cex :
    rebuildWorkshops parseZero (rebuildWorkshops parseZero [] [c7Inc] [])
        [c7Inc] []
      ≠ rebuildWorkshops parseZero [] [c7Inc] [] := by
  decide

/-- C7 (amended): the merge is idempotent provided every incoming
record that carries an id would not be classified as kept-old
(its extracted source prefix is missing, empty, or lies in the
succeeded set) — which is how `main` produces batches when source
ids contain no hyphen. -/
theorem c7_thm (parse : String → Option Int) (E I : List Event) (S : List String)
    (hI : ∀ w ∈ I, hasId w = true → keptOld S w = false) :
    rebuildWorkshops parse (rebuildWorkshops parse E I S) I S
      = rebuildWorkshops parse E I S := by
  unfold rebuildWorkshops
  rw [filter_isortBy, List.filter_append]
  have h1 : (E.filter (keptOld S)).filter (keptOld S) = E.filter (keptOld S) := by
    rw [List.filter_filter]
    apply List.filter_congr
    intro w _
    cases h : keptOld S w <;> simp [h]
  have h2 : (I.filter hasId).filter (keptOld S) = [] := by
    rw [List.filter_eq_nil]
    intro w hw
    rcases List.mem_filter.mp hw with ⟨hw', hid⟩
    simp [hI w hw' hid]
  rw [h1, h2, List.append_nil, isortBy_idem_append]

/-- C7 witness: idempotence on a concrete run whose incoming record
comes from a succeeded source. -/
theorem c7_wit :
    rebuildWorkshops parseZero
        (rebuildWorkshops parseZero [c7OldZ] [c7Inc] ["a"]) [c7Inc] ["a"]
      = rebuildWorkshops parseZero [c7OldZ] [c7Inc] ["a"] :=
  c7_thm parseZero [c7OldZ] [c7Inc] ["a"] (by decide)

/-- C8 counterexample: two succeeded sources `s` and `t` each
produce one record with the same parsed start instant.  Processing
them in the two possible orders yields two different catalogs (ties
keep input order; they are not broken by case-insensitive title:
`beta` stays before `Alpha`), refuting both the claimed title
tie-break and order-independence. -/
theorem c8_cex :
    rebuildWorkshops parseZero [] [c8EvB, c8EvA] ["s", "t"] = [c8EvB, c8EvA]
      ∧ rebuildWorkshops parseZero [] [c8EvA, c8EvB] ["s", "t"] = [c8EvA, c8EvB]
      ∧ rebuildWorkshops parseZero [] [c8EvB, c8EvA] ["s", "t"]
          ≠ rebuildWorkshops parseZero [] [c8EvA, c8EvB] ["s", "t"] := by
  decide

/-- C8 (amended): the merged catalog is sorted ascending by parsed
`startAt` (unparseable dates last); ties keep the processing order
of the concatenated kept-existing/incoming list rather than being
broken by title, so the catalog is deterministic only for a fixed
source-processing order. -/
theorem c8_thm (parse : String → Option Int) (E I : List Event)
    (S : List String) :
    SortedK (ekey parse) (rebuildWorkshops parse E I S) :=
  isortBy_sorted (ekey parse) _

/-- C4: in an end-only-meridiem range the start marker is `am`
exactly under the tie-break `start-hour > end-hour and start-hour >= 10`
and is otherwise copied from the end; the captures of `7-9pm`
resolve to 19:00-21:00, the captures of `10-1pm` resolve to
10:00-13:00, and applying the latter to any base date keeps both
instants inside that base day (no day roll). -/
theorem c4_thm :
    (∀ sh eh eap, endOnlySap sh eh eap =
        if sh > eh ∧ 10 ≤ sh then AmPm.am else eap)
      ∧ endOnlyTimes 7 0 9 0 AmPm.pm = (19, 0, 21, 0)
      ∧ endOnlyTimes 10 0 1 0 AmPm.pm = (10, 0, 13, 0)
      ∧ (∀ base : Int,
          applyTimeToDate base (some (endOnlyTimes 10 0 1 0 AmPm.pm))
            = (base + 36000, base + 46800))
      ∧ (∀ base : Int,
          base ≤ base + 36000 ∧ base + 46800 < base + daySecs) := by
  refine ⟨fun sh eh eap => rfl, by decide, by decide, fun base => ?_, fun base => ?_⟩
  · have h : endOnlyTimes 10 0 1 0 AmPm.pm = (10, 0, 13, 0) := by decide
    rw [h]
    simp only [applyTimeToDate]
    norm_num
  · simp only [daySecs]
    omega

/-- C9 counterexample: `ensure_workshop_schema` given a parsed start
instant 0 and a parsed end instant 100000 seconds earlier rolls the
end forward only one day, leaving `endAt = -13600 < startAt` — the
claimed invariant `endAt ≥ startAt` does not hold for every
normalized event. -/
theorem c9_cex :
    schemaTimes (some 0) (some (-100000)) = (some 0, some (-13600))
      ∧ (-13600 : Int) < 0 := by
  constructor
  · simp [schemaTimes, daySecs]
  · norm_num

/-- C9 (amended): the one-day roll-forward establishes
`endAt ≥ startAt` exactly when the naive end is at most one day
before the start; the defaulted end (start plus two hours) and the
`apply_time_to_date` path (whose clock components are within one
day) always satisfy it. -/
theorem c9_thm :
    (∀ s e : Int, s - daySecs ≤ e →
        ∃ e2, schemaTimes (some s) (some e) = (some s, some e2) ∧ s ≤ e2)
      ∧ (∀ s : Int,
          schemaTimes (some s) none = (some s, some (s + defaultDurationSecs))
            ∧ s ≤ s + defaultDurationSecs)
      ∧ (∀ (base : Int) (sh sm eh em : Nat), sh < 24 → sm < 60 → eh < 24 →
          em < 60 →
          (applyTimeToDate base (some (sh, sm, eh, em))).1
            < (applyTimeToDate base (some (sh, sm, eh, em))).2) := by
  refine ⟨fun s e h => ?_, fun s => ?_, fun base sh sm eh em h1 h2 h3 h4 => ?_⟩
  · by_cases he : e ≤ s
    · refine ⟨e + daySecs, ?_, ?_⟩
      · simp [schemaTimes, he]
      · simp only [daySecs] at h ⊢
        omega
    · exact ⟨e, by simp [schemaTimes, he], by omega⟩
  · constructor
    · simp [schemaTimes]
    · simp only [defaultDurationSecs]
      omega
  · simp only [applyTimeToDate, daySecs]
    by_cases hc : base + eh * 3600 + em * 60 ≤ base + sh * 3600 + sm * 60
    · rw [if_pos hc]
      omega
    · rw [if_neg hc]
      omega

/-- C9 witness: the roll-forward at a concrete in-range end (one
hour before the start) and a concrete 19:00-21:00 range. -/
theorem c9_wit :
    (∃ e2, schemaTimes (some 0) (some (-3600)) = (some 0, some e2) ∧ (0 : Int) ≤ e2)
      ∧ (applyTimeToDate 0 (some (19, 0, 21, 0))).1
          < (applyTimeToDate 0 (some (19, 0, 21, 0))).2 :=
  ⟨c9_thm.1 0 (-3600) (by norm_num [daySecs]),
    c9_thm.2.2 0 19 0 21 0 (by omega) (by omega) (by omega) (by omega)⟩

/-- C6: `prune_events` keeps a sublist of its input (pure, order
preserved), and an event whose start parses is kept exactly when its
end instant (defaulting to the start) is at least `now - P` days and
its start is at most `now + F` days, both bounds inclusive. -/
theorem c6_thm (parse : String → Option Int) (items : List Event)
    (P F now : Int) :
    (pruneEvents parse items P F now).Sublist items
      ∧ ∀ w ∈ items, ∀ s, parseField parse w.startAt = some s →
          (w ∈ pruneEvents parse items P F now ↔
            (now - P * daySecs ≤ (parseField parse w.endAt).getD s
              ∧ s ≤ now + F * daySecs)) := by
  constructor
  · exact List.filter_sublist items
  · intro w hw s hs
    unfold pruneEvents
    rw [List.mem_filter]
    unfold pruneKeep
    rw [hs]
    simp [hw]

/-- C6 witness: the boundary run of the claim, at `now = 0`,
`P = 7`, `F = 365` and second granularity: an event ending exactly
at `now - P` is retained, one second earlier is dropped; an event
starting exactly at `now + F` is retained, one second later is
dropped. -/
theorem c6_wit :
    c6E1 ∈ pruneEvents c6Parse [c6E1, c6E2, c6E3, c6E4] 7 365 0
      ∧ c6E2 ∉ pruneEvents c6Parse [c6E1, c6E2, c6E3, c6E4] 7 365 0
      ∧ c6E3 ∈ pruneEvents c6Parse [c6E1, c6E2, c6E3, c6E4] 7 365 0
      ∧ c6E4 ∉ pruneEvents c6Parse [c6E1, c6E2, c6E3, c6E4] 7 365 0 := by
  have h := c6_thm c6Parse [c6E1, c6E2, c6E3, c6E4] 7 365 0
  refine ⟨?_, ?_, ?_, ?_⟩
  · exact (h.2 c6E1 (by decide) 0 (by decide)).mpr (by decide)
  · intro hmem
    exact absurd ((h.2 c6E2 (by decide) 0 (by decide)).mp hmem) (by decide)
  · exact (h.2 c6E3 (by decide) 31536000 (by decide)).mpr (by decide)
  · intro hmem
    exact absurd ((h.2 c6E4 (by decide) 31536001 (by decide)).mp hmem) (by decide)

/-- C2 counterexample: two distinct candidates scraped off one
listing page (different titles, no per-event URL) both fall back to
the source's landing page in `ensure_workshop_schema`, and
`compute_event_id` has no landing-page exclusion, so their computed
ids are equal — they do collapse into a single identity, refuting
the claimed fallback to the title/start hash. -/
theorem c2_cex :
    schemaTitle c2CandA ≠ schemaTitle c2CandB
      ∧ schemaRegUrl c2Norm c2CandA c2Src = some "https://site.com/events"
      ∧ schemaRegUrl c2Norm c2CandB c2Src = some "https://site.com/events"
      ∧ c2Src.url = some "https://site.com/events"
      ∧ schemaEventId c2Hash c2Norm c2CandA c2Src (some "2026-03-01T19:00:00-08:00")
          = schemaEventId c2Hash c2Norm c2CandB c2Src
              (some "2026-03-01T19:00:00-08:00") := by
  decide

/-- C2 (amended): the fingerprint uses the registration URL whenever
it is present and non-empty — including when it equals the source's
own landing page, which `ensure_workshop_schema` substitutes when a
candidate has no URL of its own — so the id is then independent of
title and start; the hash over (source id, lower-cased trimmed
title, start) is used only when no URL at all is available. -/
theorem c2_thm (h : String → String) (sid t1 s1 t2 s2 u : String)
    (hu : u ≠ "") :
    computeEventId h sid t1 s1 (some u) = computeEventId h sid t2 s2 (some u)
      ∧ computeEventId h sid t1 s1 none
          = sid ++ "-" ++ takeS (h (sid ++ "|ts|" ++ lowerS (trimS t1) ++ "|" ++ s1)) 16 := by
  constructor
  · simp [computeEventId, truthyS, hu]
  · simp [computeEventId, truthyS]

/-- C2 witness: the amended rule at the concrete landing-page URL of
the counterexample. -/
theorem c2_wit :
    computeEventId c2Hash "src" "Alpha Class" "2026-03-01" (some "https://site.com/events")
      = computeEventId c2Hash "src" "Beta Class" "2026-03-02" (some "https://site.com/events") :=
  (c2_thm c2Hash "src" "Alpha Class" "2026-03-01" "Beta Class" "2026-03-02"
    "https://site.com/events" (by decide)).1

theorem lowerS_eq_empty {s : String} (h : lowerS s = "") : s = "" := by
  cases s with
  | mk data =>
    cases data with
    | nil => rfl
    | cons c cs =>
      have hd := congrArg String.data h
      simp [lowerS, String.toList] at hd

theorem string_append_singleton_ne {p : String} (hp : p ≠ "") :
    p ++ "/" ≠ "/" := by
  intro h
  apply hp
  have hd := congrArg String.data h
  rw [String.data_append] at hd
  cases p with
  | mk data =>
    cases data with
    | nil => rfl
    | cons c cs => simp at hd

theorem stripTrailingSlash_append {p : String} (hp : p ≠ "")
    (hslash : ¬ p.toList.getLast? = some '/') :
    stripTrailingSlash (p ++ "/") = p ∧ stripTrailingSlash p = p := by
  constructor
  · rw [stripTrailingSlash,
      if_pos ⟨string_append_singleton_ne hp, by simp [String.toList, String.data_append]⟩]
    have : (p ++ "/").toList = p.toList ++ ['/'] := by
      simp [String.toList, String.data_append]
    rw [this, List.dropLast_concat]
    rfl
  · rw [stripTrailingSlash, if_neg]
    intro hc
    exact hslash hc.2

/-- C5: `normalize_url` canonicalizes identically two parsed URLs
that differ only in tracking query parameters, only in a single
trailing slash on a non-root path, or only in the letter case of
scheme and host; it ignores the fragment entirely; and on a concrete
mixed-case URL it lower-cases scheme and host while preserving the
path's case. -/
theorem c5_thm :
    (∀ u1 u2 : ParsedUrl, u1.scheme = u2.scheme → u1.netloc = u2.netloc →
        u1.path = u2.path →
        u1.query.filter (fun kv => !(TRACKING_PARAMS.contains kv.1))
          = u2.query.filter (fun kv => !(TRACKING_PARAMS.contains kv.1)) →
        normalizeUrl u1 = normalizeUrl u2)
      ∧ (∀ (u1 : ParsedUrl) (p : String), p ≠ "" →
          ¬ p.toList.getLast? = some '/' →
          normalizeUrl { u1 with path := (p ++ "/") }
            = normalizeUrl { u1 with path := p })
      ∧ (∀ u1 u2 : ParsedUrl, lowerS u1.scheme = lowerS u2.scheme →
          lowerS u1.netloc = lowerS u2.netloc → u1.path = u2.path →
          u1.query = u2.query → normalizeUrl u1 = normalizeUrl u2)
      ∧ (∀ (u : ParsedUrl) (f : String),
          normalizeUrl { u with fragment := f } = normalizeUrl u)
      ∧ normalizeUrl { scheme := "HTTPS", netloc := "Site.com",
                        path := "/MyPage", query := [], fragment := "frag" }
          = "https://site.com/MyPage" := by
  refine ⟨?_, ?_, ?_, fun u f => rfl, by decide⟩
  · intro u1 u2 h1 h2 h3 h4
    simp only [normalizeUrl, normalizeParts, h1, h2, h3, h4]
  · intro u1 p hp hslash
    rcases stripTrailingSlash_append hp hslash with ⟨ha, hb⟩
    simp only [normalizeUrl, normalizeParts, ha, hb]
  · intro u1 u2 h1 h2 h3 h4
    have hsch : lowerS (if u1.scheme = "" then "https" else u1.scheme)
        = lowerS (if u2.scheme = "" then "https" else u2.scheme) := by
      by_cases e1 : u1.scheme = ""
      · have e2 : u2.scheme = "" := by
          apply lowerS_eq_empty
          rw [← h1, e1]
          rfl
        rw [e1, e2]
      · have e2 : u2.scheme ≠ "" := by
          intro hc
          apply e1
          apply lowerS_eq_empty
          rw [h1, hc]
          rfl
        rw [if_neg e1, if_neg e2]
        exact h1
    simp only [normalizeUrl, normalizeParts, hsch, h2, h3, h4]

/-- C5 witness: the three difference classes and the fragment at
concrete URLs (tracking parameters stripped, trailing slash
collapsed, scheme/host case folded). -/
theorem c5_wit :
    normalizeUrl { scheme := "https", netloc := "site.com", path := "/a",
                   query := [("utm_source", "x"), ("q", "1")], fragment := "" }
        = normalizeUrl { scheme := "https", netloc := "site.com", path := "/a",
                         query := [("q", "1"), ("fbclid", "z")], fragment := "" }
      ∧ normalizeUrl { scheme := "https", netloc := "site.com",
                       path := ("/b" ++ "/"), query := [], fragment := "" }
          = normalizeUrl { scheme := "https", netloc := "site.com", path := "/b",
                           query := [], fragment := "" }
      ∧ normalizeUrl { scheme := "HTTP", netloc := "Example.COM", path := "/Keep",
                       query := [], fragment := "" }
          = normalizeUrl { scheme := "http", netloc := "example.com", path := "/Keep",
                           query := [], fragment := "" } := by
  refine ⟨?_, ?_, ?_⟩
  · exact c5_thm.1 _ _ rfl rfl rfl (by decide)
  · exact c5_thm.2.1
      { scheme := "https", netloc := "site.com", path := "/b", query := [],
        fragment := "" } "/b" (by decide) (by decide)
  · exact c5_thm.2.2.1 _ _ (by decide) (by decide) rfl rfl

theorem mem_replaceFirst {l : List Event} {old w z : Event}
    (h : z ∈ replaceFirst l old w) : z ∈ l ∨ (z = w ∧ old ∈ l) := by
  induction l with
  | nil => simp [replaceFirst] at h
  | cons x xs ih =>
    by_cases hx : x = old
    · rw [replaceFirst, if_pos hx] at h
      rcases List.mem_cons.mp h with rfl | h'
      · refine Or.inr ⟨rfl, ?_⟩
        rw [← hx]
        exact List.mem_cons_self x xs
      · exact Or.inl (List.mem_cons_of_mem _ h')
    · rw [replaceFirst, if_neg hx] at h
      rcases List.mem_cons.mp h with rfl | h'
      · exact Or.inl (List.mem_cons_self _ _)
      · rcases ih h' with h'' | ⟨hzw, hold⟩
        · exact Or.inl (List.mem_cons_of_mem _ h'')
        · exact Or.inr ⟨hzw, List.mem_cons_of_mem _ hold⟩

theorem w_mem_replaceFirst {l : List Event} {old w : Event} (h : old ∈ l) :
    w ∈ replaceFirst l old w := by
  induction l with
  | nil => cases h
  | cons x xs ih =>
    by_cases hx : x = old
    · rw [replaceFirst, if_pos hx]
      exact List.mem_cons_self _ _
    · rw [replaceFirst, if_neg hx]
      rcases List.mem_cons.mp h with h' | h'
      · exact absurd h'.symm hx
      · exact List.mem_cons_of_mem _ (ih h')

theorem mem_replaceFirst_of_ne {l : List Event} {old w v : Event}
    (hv : v ≠ old) (h : v ∈ l) : v ∈ replaceFirst l old w := by
  induction l with
  | nil => cases h
  | cons x xs ih =>
    rcases List.mem_cons.mp h with rfl | h'
    · rw [replaceFirst, if_neg hv]
      exact List.mem_cons_self _ _
    · by_cases hx : x = old
      · rw [replaceFirst, if_pos hx]
        exact List.mem_cons_of_mem _ h'
      · rw [replaceFirst, if_neg hx]
        exact List.mem_cons_of_mem _ (ih h')

theorem pairwise_replaceFirst {R : Event → Event → Prop} {l : List Event}
    {old w : Event} (h : l.Pairwise R)
    (h1 : ∀ x, R x old → R x w) (h2 : ∀ x, R old x → R w x) :
    (replaceFirst l old w).Pairwise R := by
  induction l with
  | nil => exact h
  | cons x xs ih =>
    rcases List.pairwise_cons.mp h with ⟨hx, hxs⟩
    by_cases he : x = old
    · rw [replaceFirst, if_pos he]
      refine List.pairwise_cons.mpr ⟨?_, hxs⟩
      intro y hy
      subst he
      exact h2 y (hx y hy)
    · rw [replaceFirst, if_neg he]
      refine List.pairwise_cons.mpr ⟨?_, ih hxs⟩
      intro y hy
      rcases mem_replaceFirst hy with h' | ⟨rfl, hold⟩
      · exact hx y h'
      · exact h1 x (hx old hold)

theorem lookup_mem {seen : List (String × Event)} {u : String} {e : Event}
    (h : List.lookup u seen = some e) : (u, e) ∈ seen := by
  induction seen with
  | nil => simp [List.lookup] at h
  | cons kv rest ih =>
    obtain ⟨k, v⟩ := kv
    by_cases hk : u = k
    · subst hk
      simp [List.lookup] at h
      subst h
      exact List.mem_cons_self _ _
    · simp [List.lookup, beq_false_of_ne hk] at h
      exact List.mem_cons_of_mem _ (ih h)

theorem lookup_ne_none {seen : List (String × Event)} {u : String} {v : Event}
    (hmem : (u, v) ∈ seen) : List.lookup u seen ≠ none := by
  induction seen with
  | nil => cases hmem
  | cons kv rest ih =>
    obtain ⟨k, w0⟩ := kv
    rcases List.mem_cons.mp hmem with heq | h'
    · injection heq with h1 h2
      subst h1
      simp [List.lookup]
    · by_cases hk : u = k
      · subst hk
        simp [List.lookup]
      · simp only [List.lookup, beq_false_of_ne hk]
        exact ih h'

theorem lookup_none_key {seen : List (String × Event)} {u : String}
    (h : List.lookup u seen = none) : u ∉ seen.map Prod.fst := by
  intro hmem
  rcases List.mem_map.mp hmem with ⟨p, hp, hfst⟩
  refine lookup_ne_none (v := p.2) ?_ h
  rw [← hfst]
  simpa using hp

theorem updateSeen_keys (seen : List (String × Event)) (u : String) (w : Event) :
    (updateSeen seen u w).map Prod.fst = seen.map Prod.fst := by
  simp only [updateSeen, List.map_map]
  apply List.map_congr_left
  intro kv _
  by_cases hk : kv.1 = u
  · simp [hk]
  · simp [hk]

theorem mem_updateSeen {seen : List (String × Event)} {u : String} {w : Event}
    {p : String × Event} (h : p ∈ updateSeen seen u w) :
    (p.1 = u ∧ p.2 = w ∧ ∃ v, (u, v) ∈ seen) ∨ (p ∈ seen ∧ p.1 ≠ u) := by
  rcases List.mem_map.mp h with ⟨kv, hkv, heq⟩
  by_cases hk : kv.1 = u
  · left
    rw [if_pos hk] at heq
    rw [← heq]
    exact ⟨rfl, rfl, kv.2, by rw [← hk]; exact hkv⟩
  · right
    rw [if_neg hk] at heq
    rw [← heq]
    exact ⟨hkv, hk⟩

theorem dedupeByUrl_pairwise (ws : List Event) :
    ∀ (out : List Event) (seen : List (String × Event)),
    out.Pairwise UrlDistinct →
    (∀ p ∈ seen, truthyUrl p.2 = some p.1 ∧ p.2 ∈ out) →
    (∀ w ∈ out, ∀ u, truthyUrl w = some u → u ∈ seen.map Prod.fst) →
    (seen.map Prod.fst).Nodup →
    (dedupeByUrlAux ws out seen).Pairwise UrlDistinct := by
  induction ws with
  | nil =>
    intro out seen h1 _ _ _
    simpa [dedupeByUrlAux] using h1
  | cons w ws ih =>
    intro out seen h1 h2 h3 h4
    cases htw : truthyUrl w with
    | none =>
      simp only [dedupeByUrlAux, htw]
      apply ih
      · apply List.pairwise_append.mpr
        refine ⟨h1, List.pairwise_singleton _ _, ?_⟩
        intro x _ y hy
        rcases List.mem_singleton.mp hy with rfl
        intro u _
        rw [htw]
        simp
      · intro p hp
        rcases h2 p hp with ⟨ha, hb⟩
        exact ⟨ha, List.mem_append_left _ hb⟩
      · intro x hx u hxu
        rcases List.mem_append.mp hx with hx' | hx'
        · exact h3 x hx' u hxu
        · rcases List.mem_singleton.mp hx' with rfl
          rw [htw] at hxu
          cases hxu
      · exact h4
    | some u =>
      cases hlk : List.lookup u seen with
      | none =>
        simp only [dedupeByUrlAux, htw, hlk]
        have hunotin : u ∉ seen.map Prod.fst := lookup_none_key hlk
        apply ih
        · apply List.pairwise_append.mpr
          refine ⟨h1, List.pairwise_singleton _ _, ?_⟩
          intro x hxmem y hy
          rcases List.mem_singleton.mp hy with rfl
          intro u' hxu'
          rw [htw]
          intro hc
          injection hc with hc'
          rw [hc'] at hunotin
          exact hunotin (h3 x hxmem u' hxu')
        · intro p hp
          rcases List.mem_cons.mp hp with rfl | hp'
          · exact ⟨htw, List.mem_append_right _ (List.mem_singleton.mpr rfl)⟩
          · rcases h2 p hp' with ⟨ha, hb⟩
            exact ⟨ha, List.mem_append_left _ hb⟩
        · intro x hx u' hxu'
          simp only [List.map_cons]
          rcases List.mem_append.mp hx with hx' | hx'
          · exact List.mem_cons_of_mem _ (h3 x hx' u' hxu')
          · rcases List.mem_singleton.mp hx' with rfl
            rw [htw] at hxu'
            injection hxu' with h'
            rw [← h']
            exact List.mem_cons_self _ _
        · simp only [List.map_cons]
          exact List.nodup_cons.mpr ⟨hunotin, h4⟩
      | some e =>
        rcases h2 (u, e) (lookup_mem hlk) with ⟨he1, he2⟩
        by_cases hrep : (!(isGeneric w.title) && isGeneric e.title) = true
        · simp only [dedupeByUrlAux, htw, hlk, hrep, if_true]
          apply ih
          · apply pairwise_replaceFirst h1
            · intro x hx u' hxu' hc
              rw [htw] at hc
              injection hc with hc'
              apply hx u' hxu'
              rw [he1, hc']
            · intro x hx u' hwu'
              rw [htw] at hwu'
              injection hwu' with h'
              apply hx u'
              rw [he1, h']
          · intro p hp
            rcases mem_updateSeen hp with ⟨hp1, hp2, v, hv⟩ | ⟨hp', hpne⟩
            · constructor
              · rw [hp2, hp1, htw]
              · rw [hp2]
                exact w_mem_replaceFirst he2
            · rcases h2 p hp' with ⟨ha, hb⟩
              refine ⟨ha, mem_replaceFirst_of_ne ?_ hb⟩
              intro hc
              apply hpne
              rw [hc, he1] at ha
              injection ha with ha'
              exact ha'.symm
          · intro x hx u' hxu'
            rw [updateSeen_keys]
            rcases mem_replaceFirst hx with hx' | ⟨rfl, _⟩
            · exact h3 x hx' u' hxu'
            · rw [htw] at hxu'
              injection hxu' with h'
              rw [← h']
              exact List.mem_map.mpr ⟨(u, e), lookup_mem hlk, rfl⟩
          · rw [updateSeen_keys]
            exact h4
        · have hrep' := eq_false_of_ne_true hrep
          simp only [dedupeByUrlAux, htw, hlk, hrep', Bool.false_eq_true, if_false]
          exact ih out seen h1 h2 h3 h4

theorem dedupeByKey_pairwise_any {R : Event → Event → Prop} (ws : List Event) :
    ∀ (out : List Event) (seenK : List String),
    (out ++ ws).Pairwise R → (dedupeByKeyAux ws out seenK).Pairwise R := by
  induction ws with
  | nil =>
    intro out seenK h
    simpa [dedupeByKeyAux] using h
  | cons w ws ih =>
    intro out seenK h
    by_cases hc : seenK.contains (dedupKey w) = true
    · simp only [dedupeByKeyAux, hc, if_true]
      apply ih
      exact List.Pairwise.sublist
        (List.Sublist.append_left (List.sublist_cons_self w ws) out) h
    · have hc' := eq_false_of_ne_true hc
      simp only [dedupeByKeyAux, hc', Bool.false_eq_true, if_false]
      apply ih
      simpa [List.append_assoc] using h

theorem dedupeByKey_pairwise_key (ws : List Event) :
    ∀ (out : List Event) (seenK : List String),
    out.Pairwise (fun a b => dedupKey a ≠ dedupKey b) →
    (∀ w ∈ out, dedupKey w ∈ seenK) →
    (dedupeByKeyAux ws out seenK).Pairwise (fun a b => dedupKey a ≠ dedupKey b) := by
  induction ws with
  | nil =>
    intro out seenK h1 _
    simpa [dedupeByKeyAux] using h1
  | cons w ws ih =>
    intro out seenK h1 h2
    by_cases hc : seenK.contains (dedupKey w) = true
    · simp only [dedupeByKeyAux, hc, if_true]
      exact ih out seenK h1 h2
    · have hc' := eq_false_of_ne_true hc
      simp only [dedupeByKeyAux, hc', Bool.false_eq_true, if_false]
      apply ih
      · apply List.pairwise_append.mpr
        refine ⟨h1, List.pairwise_singleton _ _, ?_⟩
        intro x hx y hy
        rcases List.mem_singleton.mp hy with rfl
        intro hk
        apply hc
        rw [← hk]
        exact List.elem_eq_true_of_mem (h2 x hx)
      · intro x hx
        rcases List.mem_append.mp hx with hx' | hx'
        · exact List.mem_cons_of_mem _ (h2 x hx')
        · rcases List.mem_singleton.mp hx' with rfl
          exact List.mem_cons_self _ _

/-- C10 counterexample: two catalog records with distinct
registration URLs but the same title+date key; the final dedup keeps
only the first, so the group of events sharing the second URL has no
survivor at all — pass 2 applies to URL-carrying events too, and
"exactly one event per registration URL survives" fails. -/
theorem c10_cex :
    finalDedupe [c10E1, c10E2] = [c10E1]
      ∧ c10E1.registrationURL = some "u1"
      ∧ c10E2.registrationURL = some "u2"
      ∧ dedupKey c10E1 = dedupKey c10E2
      ∧ ∀ w ∈ finalDedupe [c10E1, c10E2], w.registrationURL ≠ some "u2" := by
  decide

/-- C10 (amended): after the final two-pass deduplication the
persisted catalog never contains two events with the same truthy
registration URL, nor two events with the same (first 30
alphanumeric characters of the lower-cased title, first 10
characters of `startAt`) key; pass 2 dedups all pass-1 survivors,
not only the URL-less remainder, so a URL's sole representative can
itself still be dropped by the key pass. -/
theorem c10_thm (l : List Event) :
    (finalDedupe l).Pairwise UrlDistinct
      ∧ (finalDedupe l).Pairwise (fun a b => dedupKey a ≠ dedupKey b) := by
  constructor
  · unfold finalDedupe
    apply dedupeByKey_pairwise_any
    simp only [List.nil_append]
    apply dedupeByUrl_pairwise l [] []
    · exact List.Pairwise.nil
    · intro p hp
      cases hp
    · intro w hw
      cases hw
    · exact List.nodup_nil
  · unfold finalDedupe
    apply dedupeByKey_pairwise_key
    · exact List.Pairwise.nil
    · intro w hw
      cases hw

end SyncWorkshops
